import Mathlib

/-!
Verification of the rooms repository against its specification.

This file shallowly embeds the parts of the Rust sources that the claims
under study depend on: room naming (`src/room/naming.rs`), the porcelain
worktree-listing parser (`src/git/worktree.rs`), room discovery
(`src/room/discovery.rs`), the transient state store
(`src/state/transient.rs`), the remove/rename lifecycle operations
(`src/room/remove.rs`, `src/room/rename.rs`, `src/state/mod.rs`), the
UI deletion guard (`src/ui/app.rs`) and the PTY session resize path
(`src/terminal/session.rs`).

Modelling conventions:
- Rust strings are lists of characters (`Str`); Rust byte lengths and
  character counts coincide on the ASCII data all modelled operations
  produce, and `str::to_lowercase` is modelled by the ASCII case mapping.
- Filesystem and subprocess interaction (path canonicalization, `git`
  invocations, the random name generator, the clock) are explicit oracle
  parameters, so every operation is a pure function of its inputs.
- Operations whose observable behaviour includes invoking an external
  command additionally return the list of invocations they made, so that
  statements such as "no checkout was removed" are expressible.
-/

set_option autoImplicit false

namespace Rooms

/-- Rust `String` and `&str` values, modelled as lists of characters. -/
abbrev Str := List Char

/-- Shorthand turning a Lean string literal into its `Str` model. -/
def str (s : String) : Str := s.toList

/-- Boolean prefix test on lists (model of Rust `starts_with` on both
strings and path component sequences). -/
def isPre {α : Type} [DecidableEq α] : List α → List α → Bool
  | [], _ => true
  | _ :: _, [] => false
  | a :: as, b :: bs => decide (a = b) && isPre as bs

/-- Model of Rust `str::strip_prefix`: the remainder of `s` after the
prefix `pre`, when `pre` is indeed a prefix. -/
def stripPre (pre s : Str) : Option Str :=
  if isPre pre s then some (s.drop pre.length) else none

/-- Boolean substring test (model of Rust `str::contains` with a string
pattern). -/
def containsSub (needle : Str) : Str → Bool
  | [] => isPre needle []
  | c :: cs => isPre needle (c :: cs) || containsSub needle cs

/-! ## Naming (`src/room/naming.rs`) -/

/-- Rust `char::is_ascii_lowercase`. -/
def isAsciiLower (c : Char) : Bool := decide ('a' ≤ c) && decide (c ≤ 'z')

/-- Rust `char::is_ascii_uppercase`. -/
def isAsciiUpper (c : Char) : Bool := decide ('A' ≤ c) && decide (c ≤ 'Z')

/-- Rust `char::is_ascii_digit`. -/
def isAsciiDigit (c : Char) : Bool := decide ('0' ≤ c) && decide (c ≤ '9')

/-- Rust `char::is_ascii_alphanumeric`. -/
def isAsciiAlnum (c : Char) : Bool := isAsciiLower c || isAsciiUpper c || isAsciiDigit c

/-- Model of `str::to_lowercase` on a single character: the ASCII case
mapping.  (Rust applies the full Unicode mapping; the claims under study
only depend on its ASCII behaviour, on which the two agree.) -/
def toLowerChar (c : Char) : Char :=
  if isAsciiUpper c then Char.ofNat (c.toNat + 32) else c

/-- Model of `str::to_lowercase`. -/
def rustToLowercase (s : Str) : Str := s.map toLowerChar

/-- The character set accepted by `validate_room_name`: lowercase ASCII
letters, ASCII digits and the hyphen. -/
def isValidNameChar (c : Char) : Bool :=
  isAsciiLower c || isAsciiDigit c || decide (c = '-')

/-- Model of `validate_room_name` from `src/room/naming.rs`.  (Rust `name.len()`
counts bytes; on the ASCII outputs of `sanitize_room_name`, on which the
claims evaluate it, bytes and characters coincide.) -/
def validate_room_name (name : Str) : Except String Unit :=
  if name.isEmpty then
    .error "name cannot be empty"
  else if name.length > 40 then
    .error "name cannot exceed 40 characters"
  else if name.head? = some '-' || name.getLast? = some '-' then
    .error "name cannot start or end with a hyphen"
  else if !(name.all isValidNameChar) then
    .error "name can only contain lowercase letters, digits, and hyphens"
  else
    .ok ()

/-- The hyphen-collapsing loop of `sanitize_room_name`: a non-hyphen
character is always kept (recording `last_was_hyphen = false`); a hyphen
is kept only when the previously kept character was not a hyphen. -/
def collapseHyphens : Str → Bool → Str
  | [], _ => []
  | c :: cs, lastWasHyphen =>
    if c = '-' then
      if lastWasHyphen then collapseHyphens cs true
      else '-' :: collapseHyphens cs true
    else
      c :: collapseHyphens cs false

/-- The `while result.ends_with('-') { result.pop(); }` loop of
`sanitize_room_name`: removes every trailing hyphen. -/
def dropTrailingHyphens : Str → Str
  | [] => []
  | c :: cs =>
    let rest := dropTrailingHyphens cs
    if rest.isEmpty && decide (c = '-') then [] else c :: rest

/-- The per-character map of `sanitize_room_name`: keep alphanumeric
characters, replace anything else with a hyphen. -/
def hyphenate (c : Char) : Char := if isAsciiAlnum c then c else '-'

/-- Model of `sanitize_room_name` from `src/room/naming.rs`: lowercase, map
non-alphanumeric characters to hyphens, collapse runs of hyphens and
strip a leading hyphen, pop a single trailing hyphen, then truncate to
40 characters removing any hyphens the truncation leaves at the end. -/
def sanitize_room_name (name : Str) : Str :=
  let sanitized := (rustToLowercase name).map hyphenate
  let collapsed := collapseHyphens sanitized true
  let result :=
    if collapsed.getLast? = some '-' then collapsed.dropLast else collapsed
  if result.length > 40 then dropTrailingHyphens (result.take 40) else result

/-- The retry loop of `generate_unique_room_name`: starting with the
`i`-th call to the generator and `fuel` attempts left, the first
generated candidate the `existsFn` predicate does not reject, if any.
The random generator is modelled by the oracle `gen`, giving the
candidate produced by the n-th call to `generate_room_name`. -/
def findFreeName (gen : Nat → Str) (existsFn : Str → Bool) : Nat → Nat → Option Str
  | _, 0 => none
  | i, fuel + 1 =>
    let name := gen i
    if !existsFn name then some name else findFreeName gen existsFn (i + 1) fuel

/-- Model of `generate_unique_room_name` from `src/room/naming.rs`: try up to 100
generated candidates, rejecting any for which `existsFn` is true; on
exhaustion fall back to `room-<timestamp>` where `timestamp` is the
current unix time in seconds (an oracle here). -/
def generate_unique_room_name (gen : Nat → Str) (existsFn : Str → Bool)
    (timestamp : Nat) : Str :=
  match findFreeName gen existsFn 0 100 with
  | some name => name
  | none => str "room-" ++ str (Nat.repr timestamp)

/-- Instrumentation of `generate_unique_room_name`: the list of names on
which the loop consults `existsFn`, in call order — every generated
candidate up to and including the first accepted one.  The fallback name
is never passed to `existsFn`, so it never appears here. -/
def queriedNames (gen : Nat → Str) (existsFn : Str → Bool) : Nat → Nat → List Str
  | _, 0 => []
  | i, fuel + 1 =>
    let name := gen i
    if !existsFn name then [name] else name :: queriedNames gen existsFn (i + 1) fuel

/-! ## Porcelain worktree-listing parser (`src/git/worktree.rs`) -/

/-- A parsed worktree record (`Worktree` in `src/git/worktree.rs`). -/
structure Worktree where
  path : Str
  head : Str
  branch : Option Str
  is_main : Bool
  prunable : Option Str
  locked : Option Str
  deriving Repr, DecidableEq

/-- The mutable locals of `parse_porcelain_output`, between two lines. -/
structure PState where
  worktrees : List Worktree
  current_path : Option Str
  current_head : Option Str
  current_branch : Option Str
  current_prunable : Option Str
  current_locked : Option Str
  is_first : Bool
  deriving Repr, DecidableEq

/-- The initial parser state of `parse_porcelain_output`. -/
def initPState : PState :=
  { worktrees := [], current_path := none, current_head := none,
    current_branch := none, current_prunable := none, current_locked := none,
    is_first := true }

/-- One loop iteration of `parse_porcelain_output`.  A blank line flushes
the current record when both a `worktree` and a `HEAD` line were seen
(Rust calls `.take()` on both unconditionally, so they are cleared even
when no record is flushed); any other line is matched against the known
prefixes in source order. -/
def pstep (st : PState) (line : Str) : PState :=
  if line = [] then
    match st.current_path, st.current_head with
    | some path, some hd =>
      { worktrees := st.worktrees ++
          [{ path := path, head := hd, branch := st.current_branch,
             is_main := st.is_first, prunable := st.current_prunable,
             locked := st.current_locked }],
        current_path := none, current_head := none, current_branch := none,
        current_prunable := none, current_locked := none, is_first := false }
    | _, _ => { st with current_path := none, current_head := none }
  else
    match stripPre (str "worktree ") line with
    | some path => { st with current_path := some path }
    | none =>
    match stripPre (str "HEAD ") line with
    | some sha => { st with current_head := some sha }
    | none =>
    match stripPre (str "branch ") line with
    | some branchRef =>
      { st with current_branch := some ((stripPre (str "refs/heads/") branchRef).getD branchRef) }
    | none =>
    match stripPre (str "prunable ") line with
    | some reason => { st with current_prunable := some reason }
    | none =>
    if line = str "prunable" then { st with current_prunable := some [] }
    else
    match stripPre (str "locked ") line with
    | some reason => { st with current_locked := some reason }
    | none =>
    if line = str "locked" then { st with current_locked := some [] }
    else st

/-- The final flush of `parse_porcelain_output` after the loop: the last
record is emitted when the output did not end in a blank line. -/
def flushFinal (st : PState) : List Worktree :=
  match st.current_path, st.current_head with
  | some path, some hd =>
    st.worktrees ++
      [{ path := path, head := hd, branch := st.current_branch,
         is_main := st.is_first, prunable := st.current_prunable,
         locked := st.current_locked }]
  | _, _ => st.worktrees

/-- Model of `parse_porcelain_output`, over an already line-split input. -/
def parsePorcelainLines (ls : List Str) : List Worktree :=
  flushFinal (ls.foldl pstep initPState)

/-- Splitting on a separator character, keeping every (possibly empty)
piece; the accumulator holds the current piece reversed. -/
def splitOnCharAux (sep : Char) : Str → Str → List Str
  | [], acc => [acc.reverse]
  | c :: cs, acc =>
    if c = sep then acc.reverse :: splitOnCharAux sep cs []
    else splitOnCharAux sep cs (c :: acc)

/-- Splitting on a separator character. -/
def splitOnChar (sep : Char) (s : Str) : List Str := splitOnCharAux sep s []

/-- Strip one trailing carriage return (part of Rust `str::lines`). -/
def stripCR (l : Str) : Str :=
  if l.getLast? = some '\r' then l.dropLast else l

/-- Model of Rust `str::lines`: split on newlines, not counting a final
newline as opening an extra empty line, and stripping a trailing
carriage return from each line. -/
def rustLines (s : Str) : List Str :=
  let parts := splitOnChar '\n' s
  let parts := if parts.getLast? = some [] then parts.dropLast else parts
  parts.map stripCR

/-- Model of `parse_porcelain_output` from `src/git/worktree.rs`. -/
def parse_porcelain_output (s : Str) : List Worktree :=
  parsePorcelainLines (rustLines s)

/-! ## Room model and discovery (`src/room/model.rs`, `src/room/discovery.rs`,
`src/state/transient.rs`) -/

/-- Model of `RoomStatus` from `src/room/model.rs`. -/
inductive RoomStatus where
  | Idle
  | Creating
  | PostCreateRunning
  | Ready
  | Error
  | Deleting
  | Orphaned
  deriving Repr, DecidableEq

/-- Model of `TransientRoomState` from `src/state/transient.rs`. -/
structure TransientRoomState where
  status : RoomStatus
  last_error : Option Str
  deriving Repr, DecidableEq

/-- The `TransientStateStore` hash map, modelled as an association list
with distinct keys; `get` is first-match lookup
(`TransientStateStore::get`). -/
def lookupState : List (Str × TransientRoomState) → Str → Option TransientRoomState
  | [], _ => none
  | (k, v) :: rest, name => if k = name then some v else lookupState rest name

/-- Model of `RoomInfo` from `src/room/model.rs`. -/
structure RoomInfo where
  name : Str
  branch : Option Str
  path : Str
  status : RoomStatus
  is_prunable : Bool
  last_error : Option Str
  is_primary : Bool
  deriving Repr, DecidableEq

/-- Model of `Path::file_name` for Unix-style paths: the last non-empty
component (ignoring `.` components and trailing separators), unless it
is `..` or the path has no component at all. -/
def pathFileName (p : Str) : Option Str :=
  let comps := (splitOnChar '/' p).filter fun c => !c.isEmpty && !decide (c = str ".")
  match comps.getLast? with
  | none => none
  | some last => if last = str ".." then none else some last

/-- Model of `Worktree::name`: the directory name of the worktree. -/
def worktreeName (wt : Worktree) : Str := (pathFileName wt.path).getD (str "unknown")

/-- The `From<&Worktree> for RoomInfo` conversion in `src/room/model.rs`:
status is `Orphaned` for a prunable worktree and `Ready` otherwise. -/
def roomInfoFromWorktree (wt : Worktree) : RoomInfo :=
  { name := worktreeName wt
    branch := wt.branch
    path := wt.path
    status := if wt.prunable.isSome then RoomStatus.Orphaned else RoomStatus.Ready
    is_prunable := wt.prunable.isSome
    last_error := none
    is_primary := false }

/-- Strip every trailing `/` (Rust `trim_end_matches('/')`). -/
def trimTrailingSlashes (s : Str) : Str :=
  (s.reverse.dropWhile fun c => decide (c = '/')).reverse

/-- Model of `normalize_path_string` from `src/room/discovery.rs`: collapse runs
of separators (either `/` or `\`) into a single `/`, then remove
trailing slashes. -/
def normalize_path_string (p : Str) : Str :=
  let normalized := (p.foldl
    (fun acc c =>
      let isSep := decide (c = '/') || decide (c = '\\')
      if isSep then
        (if acc.2 then acc.1 else acc.1 ++ ['/'], true)
      else
        (acc.1 ++ [c], false))
    (([] : Str), false)).1
  trimTrailingSlashes normalized

/-- The component sequence of a Unix-style path, as compared by Rust
`Path::starts_with`: a root marker when the path is absolute, then the
non-empty components with `.` components skipped. -/
def componentsOf (p : Str) : List Str :=
  (if p.head? = some '/' then [str "/"] else []) ++
    (splitOnChar '/' p).filter fun c => !c.isEmpty && !decide (c = str ".")

/-- Model of `is_worktree_in_rooms_dir` from `src/room/discovery.rs`.  Path
canonicalization is the oracle `canon` (returning `none` when the OS
call fails, e.g. for a deleted directory).  On success the comparison is
`Path::starts_with` (component-wise); on failure it falls back to a
character-level prefix test of the normalized path strings. -/
def is_worktree_in_rooms_dir (canon : Str → Option Str) (wt : Worktree)
    (rooms_dir_canonical : Str) : Bool :=
  match canon wt.path with
  | some wtCanonical => isPre (componentsOf rooms_dir_canonical) (componentsOf wtCanonical)
  | none =>
    isPre (normalize_path_string rooms_dir_canonical) (normalize_path_string wt.path)

/-- Model of `DiscoveryError` from `src/room/discovery.rs`. -/
inductive DiscoveryError where
  | WorktreeList (cause : Str)
  | InvalidRoomsDir (path : Str)
  deriving Repr, DecidableEq

/-- The per-record overlay step of `discover_rooms`: when the transient
store has an entry for the room's name, its status and last error
replace the derived ones. -/
def applyOverlay (transient : List (Str × TransientRoomState)) (ri : RoomInfo) : RoomInfo :=
  match lookupState transient ri.name with
  | some ts => { ri with status := ts.status, last_error := ts.last_error }
  | none => ri

/-- Model of `discover_rooms` from `src/room/discovery.rs`.  The filesystem is
modelled by the oracles `fsExists`/`fsIsDir` (the rooms-dir
precondition) and `canon` (canonicalization); the `git worktree list`
call by the `listing` argument.  Keeps the non-main worktrees inside the
rooms directory and overlays transient state on each derived record. -/
def discover_rooms (fsExists fsIsDir : Str → Bool) (canon : Str → Option Str)
    (listing : Except Str (List Worktree)) (rooms_dir : Str)
    (transient : List (Str × TransientRoomState)) :
    Except DiscoveryError (List RoomInfo) :=
  if !fsExists rooms_dir || !fsIsDir rooms_dir then
    .error (.InvalidRoomsDir rooms_dir)
  else
    match listing with
    | .error e => .error (.WorktreeList e)
    | .ok worktrees =>
      let rooms_dir_canonical := (canon rooms_dir).getD rooms_dir
      .ok ((worktrees.filter fun wt =>
          !wt.is_main && is_worktree_in_rooms_dir canon wt rooms_dir_canonical).map
        fun wt => applyOverlay transient (roomInfoFromWorktree wt))

/-- Containment in a directory as worded by the specification: a path
lies inside the rooms directory when, after normalization (separator
style, repeated and trailing separators), it equals the directory or
extends it past a separator.  This definition follows the claim's words,
for comparison against `is_worktree_in_rooms_dir` from the source. -/
def specPathInsideDir (roomsDir p : Str) : Bool :=
  let d := normalize_path_string roomsDir
  let q := normalize_path_string p
  decide (q = d) || isPre (d ++ ['/']) q

/-! ## Rooms state and lifecycle operations (`src/state/mod.rs`,
`src/room/remove.rs`, `src/room/rename.rs`, `src/ui/app.rs`) -/

/-- The persisted `Room` record from `src/state/mod.rs`, restricted to
the fields the modelled operations read (`id`, `created_at` and
`last_used_at` are uuid/clock metadata never consulted by
remove/rename). -/
structure Room where
  name : Str
  branch : Str
  path : Str
  status : RoomStatus
  last_error : Option Str
  deriving Repr, DecidableEq

/-- Model of `RoomsState::find_by_name`: first room with the given name. -/
def find_by_name (rooms : List Room) (name : Str) : Option Room :=
  rooms.find? fun r => decide (r.name = name)

/-- Model of `RoomsState::name_exists`. -/
def name_exists (rooms : List Room) (name : Str) : Bool :=
  rooms.any fun r => decide (r.name = name)

/-- Model of `RoomsState::remove_by_name`: drop the first room with the given
name, keeping the rest. -/
def remove_by_name : List Room → Str → List Room
  | [], _ => []
  | r :: rest, name =>
    if r.name = name then rest else r :: remove_by_name rest name

/-- The fields of a finished `git` invocation that the modelled code
reads (`CommandOutput` in `src/git/command.rs`). -/
structure CommandOutput where
  success : Bool
  stderr : Str
  deriving Repr, DecidableEq

/-- Model of `RemoveRoomError` from `src/room/remove.rs`. -/
inductive RemoveRoomError where
  | NotFound (name : Str)
  | StatusCheck (msg : Str)
  | WorktreeRemoval (msg : Str)
  | GitError (msg : Str)
  deriving Repr, DecidableEq

/-- Model of `remove_worktree` from `src/room/remove.rs`: run
`git worktree remove <path>` (the oracle `runRemove`); a reported
failure whose stderr contains "is not a working tree" is treated as
success. -/
def remove_worktree (runRemove : Str → Except Str CommandOutput) (path : Str) :
    Except RemoveRoomError Unit :=
  match runRemove path with
  | .error e => .error (.WorktreeRemoval e)
  | .ok result =>
    if !result.success then
      if containsSub (str "is not a working tree") result.stderr then .ok ()
      else .error (.WorktreeRemoval result.stderr)
    else .ok ()

/-- Model of `remove_worktree_force` from `src/room/remove.rs`: run
`git worktree remove --force <path>`; any reported failure is an error. -/
def remove_worktree_force (runRemoveForce : Str → Except Str CommandOutput) (path : Str) :
    Except RemoveRoomError Unit :=
  match runRemoveForce path with
  | .error e => .error (.WorktreeRemoval e)
  | .ok result =>
    if !result.success then .error (.WorktreeRemoval result.stderr)
    else .ok ()

/-- The outcome of `remove_room`: its return value, the state after the
call, and (instrumentation) the `(force, path)` of every worktree
removal it attempted. -/
structure RemoveOutcome where
  result : Except RemoveRoomError Str
  state : List Room
  attempted : List (Bool × Str)
  deriving Repr

/-- Model of `remove_room` from `src/room/remove.rs`: look the room up by name
(`NotFound` when absent), remove its worktree (plain or force variant),
then drop it from the state. -/
def remove_room (runRemove runRemoveForce : Str → Except Str CommandOutput)
    (state : List Room) (room_name : Str) (force : Bool) : RemoveOutcome :=
  match find_by_name state room_name with
  | none => { result := .error (.NotFound room_name), state := state, attempted := [] }
  | some room =>
    let removal :=
      if force then remove_worktree_force runRemoveForce room.path
      else remove_worktree runRemove room.path
    match removal with
    | .error e => { result := .error e, state := state, attempted := [(force, room.path)] }
    | .ok _ =>
      { result := .ok room.name, state := remove_by_name state room_name,
        attempted := [(force, room.path)] }

/-- The observable outcome of `App::start_room_deletion` in
`src/ui/app.rs` before any confirmation dialog interaction. -/
inductive DeletionStart where
  | NoRoomSelected
  | RefusedPrimary
  | Confirming (room_name : Str)
  deriving Repr, DecidableEq

/-- The guard logic of `App::start_room_deletion` from `src/ui/app.rs`:
with no selected room, set a status message; with the primary worktree
selected, refuse with "Cannot delete the primary worktree"; otherwise
open the deletion confirmation for the selected room.  (The dirty-status
advisory gathered for the dialog is not modelled.) -/
def start_room_deletion (selected : Option RoomInfo) : DeletionStart :=
  match selected with
  | none => .NoRoomSelected
  | some room =>
    if room.is_primary then .RefusedPrimary
    else .Confirming room.name

/-- Model of `RenameRoomError` from `src/room/rename.rs`. -/
inductive RenameRoomError where
  | NotFound (name : Str)
  | InvalidName (msg : String)
  | NameExists (name : Str)
  | SameName
  | PathExists (path : Str)
  | WorktreeMove (msg : Str)
  deriving Repr, DecidableEq

/-- Model of `Path::join` with a relative right-hand side (validated
room names contain no separator). -/
def pathJoin (a b : Str) : Str := a ++ ['/'] ++ b

/-- The in-place update done by `rename_room` through
`find_by_name_mut`: set the name and path of the first room matching
`current`. -/
def set_room_name_path : List Room → Str → Str → Str → List Room
  | [], _, _, _ => []
  | r :: rest, current, newName, newPath =>
    if r.name = current then { r with name := newName, path := newPath } :: rest
    else r :: set_room_name_path rest current newName newPath

/-- The outcome of `rename_room`: its return value, the state after the
call, and (instrumentation) the `(from, to)` of every worktree move it
attempted. -/
structure RenameOutcome where
  result : Except RenameRoomError Str
  state : List Room
  moves : List (Str × Str)
  deriving Repr

/-- Model of `rename_room` from `src/room/rename.rs`: validate the new name,
reject an identical name (`SameName`), a name already present in state
(`NameExists`), an unknown current name (`NotFound`) and an existing
destination path (`PathExists`); otherwise move the worktree via
`git worktree move` (the oracle `runMove`) and update the state entry. -/
def rename_room (fsPathExists : Str → Bool)
    (runMove : Str → Str → Except Str CommandOutput) (rooms_dir : Str)
    (state : List Room) (current_name new_name : Str) : RenameOutcome :=
  match validate_room_name new_name with
  | .error e => { result := .error (.InvalidName e), state := state, moves := [] }
  | .ok _ =>
  if current_name = new_name then
    { result := .error .SameName, state := state, moves := [] }
  else if name_exists state new_name then
    { result := .error (.NameExists new_name), state := state, moves := [] }
  else
  match find_by_name state current_name with
  | none => { result := .error (.NotFound current_name), state := state, moves := [] }
  | some room =>
    let old_path := room.path
    let new_path := pathJoin rooms_dir new_name
    if fsPathExists new_path then
      { result := .error (.PathExists new_path), state := state, moves := [] }
    else
    match runMove old_path new_path with
    | .error e =>
      { result := .error (.WorktreeMove e), state := state, moves := [(old_path, new_path)] }
    | .ok result =>
      if !result.success then
        { result := .error (.WorktreeMove result.stderr), state := state,
          moves := [(old_path, new_path)] }
      else
        match find_by_name state current_name with
        | none =>
          { result := .error (.NotFound current_name), state := state,
            moves := [(old_path, new_path)] }
        | some room2 =>
          { result := .ok room2.name,
            state := set_room_name_path state current_name new_name new_path,
            moves := [(old_path, new_path)] }

/-! ## PTY session resize (`src/terminal/session.rs`) -/

/-- The state of a `PtySession` observable through `resize`: the
OS-level PTY geometry, the vt100 screen geometry, and (instrumentation)
the calls made to `master.resize`, to `screen.set_size` and to the
debug log.  `u16` geometry values are modelled as `Nat`. -/
structure PtySessionModel where
  os_cols : Nat
  os_rows : Nat
  screen_cols : Nat
  screen_rows : Nat
  os_resize_calls : List (Nat × Nat)
  set_size_calls : List (Nat × Nat)
  log_calls : List ((Nat × Nat) × (Nat × Nat))
  deriving Repr, DecidableEq

/-- Model of `PtySession::resize` from `src/terminal/session.rs`: read the old
screen geometry as `(cols, rows)`, write a debug-log entry when it
differs from the requested one, then unconditionally resize the
OS-level PTY and set the parser screen size. -/
def resizeSession (s : PtySessionModel) (cols rows : Nat) : PtySessionModel :=
  let old_size := (s.screen_cols, s.screen_rows)
  let s1 :=
    if old_size.1 ≠ cols ∨ old_size.2 ≠ rows then
      { s with log_calls := s.log_calls ++ [(old_size, (cols, rows))] }
    else s
  let s2 :=
    { s1 with
        os_cols := cols
        os_rows := rows
        os_resize_calls := s1.os_resize_calls ++ [(cols, rows)] }
  { s2 with
      screen_cols := cols
      screen_rows := rows
      set_size_calls := s2.set_size_calls ++ [(rows, cols)] }

/-! ## Auxiliary predicates used by the statements and proofs below -/

/-- No two adjacent hyphens occur in the string. -/
def noAdjHyphens : Str → Bool
  | [] => true
  | [_] => true
  | a :: b :: rest => !(decide (a = '-') && decide (b = '-')) && noAdjHyphens (b :: rest)

/-- The string does not start with a hyphen. -/
def headNotHyphen : Str → Bool
  | [] => true
  | c :: _ => !decide (c = '-')

/-- Invariant of the porcelain parser state: the `is_first` flag holds
exactly while no record has been emitted, and among the emitted records
exactly the one at index 0 carries `is_main`. -/
def goodPState (st : PState) : Prop :=
  st.is_first = st.worktrees.isEmpty ∧
    ∀ i (h : i < st.worktrees.length), (st.worktrees.get ⟨i, h⟩).is_main = decide (i = 0)

/-! ## C1: sanitize and validate -/

theorem toLowerChar_isLower (c : Char) (h : isAsciiUpper c = true) :
    isAsciiLower (toLowerChar c) = true := by
  have hb : 65 ≤ c.toNat ∧ c.toNat ≤ 90 := by
    simpa [isAsciiUpper, Char.le_def] using h
  obtain ⟨h1, h2⟩ := hb
  rw [toLowerChar, if_pos h]
  interval_cases hn : c.toNat <;> decide

theorem isLower_not_upper (c : Char) (h : isAsciiLower c = true) :
    isAsciiUpper c = false := by
  cases hu : isAsciiUpper c with
  | false => rfl
  | true =>
    exfalso
    have h1 : 97 ≤ c.toNat ∧ c.toNat ≤ 122 := by
      simpa [isAsciiLower, Char.le_def] using h
    have h2 : 65 ≤ c.toNat ∧ c.toNat ≤ 90 := by
      simpa [isAsciiUpper, Char.le_def] using hu
    omega

theorem isAsciiUpper_toLowerChar (c : Char) : isAsciiUpper (toLowerChar c) = false := by
  cases hu : isAsciiUpper c with
  | false => simp [toLowerChar, hu]
  | true => exact isLower_not_upper _ (toLowerChar_isLower c hu)

theorem alnum_ne_hyphen {c : Char} (h : isAsciiAlnum c = true) : c ≠ '-' := by
  rintro rfl
  exact absurd h (by decide)

theorem valid_hyphenate_toLower (c : Char) :
    isValidNameChar (hyphenate (toLowerChar c)) = true := by
  by_cases h : isAsciiAlnum (toLowerChar c) = true
  · rw [hyphenate, if_pos h]
    cases hlv : isAsciiLower (toLowerChar c) with
    | true => simp [isValidNameChar, hlv]
    | false =>
      cases hdv : isAsciiDigit (toLowerChar c) with
      | true => simp [isValidNameChar, hdv]
      | false =>
        exfalso
        have hu := isAsciiUpper_toLowerChar c
        rw [isAsciiAlnum, hlv, hu, hdv] at h
        simp at h
  · rw [hyphenate, if_neg h]
    decide

theorem headNotHyphen_collapse (cs : Str) :
    headNotHyphen (collapseHyphens cs true) = true := by
  induction cs with
  | nil => rfl
  | cons c cs ih =>
    by_cases h : c = '-'
    · simpa [collapseHyphens, h] using ih
    · simp [collapseHyphens, h, headNotHyphen]

theorem noAdjHyphens_cons (x : Char) (l : Str)
    (hx : headNotHyphen l = true ∨ x ≠ '-') (hl : noAdjHyphens l = true) :
    noAdjHyphens (x :: l) = true := by
  cases l with
  | nil => rfl
  | cons c cs =>
    have hc : x ≠ '-' ∨ c ≠ '-' := by
      rcases hx with hx | hx
      · right
        simpa [headNotHyphen] using hx
      · left; exact hx
    rcases hc with hc | hc <;> simp [noAdjHyphens, hc, hl]

theorem noAdjHyphens_collapse (cs : Str) :
    ∀ b, noAdjHyphens (collapseHyphens cs b) = true := by
  induction cs with
  | nil => intro b; rfl
  | cons c cs ih =>
    intro b
    by_cases h : c = '-'
    · cases b with
      | true => simpa [collapseHyphens, h] using ih true
      | false =>
        simp only [collapseHyphens, if_pos h, Bool.false_eq_true, if_neg]
        subst h
        exact noAdjHyphens_cons _ _ (Or.inl (headNotHyphen_collapse cs)) (ih true)
    · simp only [collapseHyphens, if_neg h]
      exact noAdjHyphens_cons _ _ (Or.inr h) (ih false)

theorem mem_collapseHyphens {a : Char} {cs : Str} (ha : a ≠ '-') (hm : a ∈ cs) :
    ∀ b, a ∈ collapseHyphens cs b := by
  induction cs with
  | nil => cases hm
  | cons c cs ih =>
    intro b
    rcases List.mem_cons.mp hm with rfl | hm
    · have hc : ¬ a = '-' := ha
      simp [collapseHyphens, hc]
    · by_cases h : c = '-'
      · cases b with
        | true => simpa [collapseHyphens, h] using ih hm true
        | false =>
          simp only [collapseHyphens, if_pos h, Bool.false_eq_true, if_neg]
          exact List.mem_cons_of_mem _ (ih hm true)
      · simp only [collapseHyphens, if_neg h]
        exact List.mem_cons_of_mem _ (ih hm false)

theorem collapseHyphens_subset {a : Char} {cs : Str} :
    ∀ b, a ∈ collapseHyphens cs b → a ∈ cs := by
  induction cs with
  | nil => intro b h; cases h
  | cons c cs ih =>
    intro b h
    by_cases hc : c = '-'
    · cases b with
      | true =>
        rw [collapseHyphens, if_pos hc, if_pos rfl] at h
        exact List.mem_cons_of_mem _ (ih true h)
      | false =>
        simp only [collapseHyphens, if_pos hc, Bool.false_eq_true, if_neg] at h
        rcases List.mem_cons.mp h with rfl | h
        · exact hc ▸ List.mem_cons_self _ _
        · exact List.mem_cons_of_mem _ (ih true h)
    · rw [collapseHyphens, if_neg hc] at h
      rcases List.mem_cons.mp h with rfl | h
      · exact List.mem_cons_self _ _
      · exact List.mem_cons_of_mem _ (ih false h)

theorem dropLast_getLast?_ne_hyphen (l : Str) (hadj : noAdjHyphens l = true)
    (hl : l.getLast? = some '-') : l.dropLast.getLast? ≠ some '-' := by
  induction l with
  | nil => simp at hl
  | cons a l ih =>
    cases l with
    | nil => simp
    | cons b l =>
      rw [List.getLast?_cons_cons] at hl
      simp only [noAdjHyphens, Bool.and_eq_true, Bool.not_eq_true'] at hadj
      obtain ⟨hab, hadj'⟩ := hadj
      have ihb := ih hadj' hl
      rw [List.dropLast_cons₂]
      cases hd : (b :: l).dropLast with
      | nil =>
        have hb : b :: l = [b] := by
          cases l with
          | nil => rfl
          | cons x xs => simp [List.dropLast_cons₂] at hd
        rw [hb] at hl
        simp only [List.getLast?_singleton, Option.some.injEq] at hl
        subst hl
        simp only [List.getLast?_singleton, ne_eq, Option.some.injEq]
        intro hcontr
        rw [hcontr] at hab
        simp at hab
      | cons y ys =>
        rw [List.getLast?_cons_cons, ← hd]
        exact ihb

theorem headNotHyphen_dropLast (l : Str) (h : headNotHyphen l = true) :
    headNotHyphen l.dropLast = true := by
  cases l with
  | nil => rfl
  | cons a l =>
    cases l with
    | nil => rfl
    | cons b l => rw [List.dropLast_cons₂]; exact h

theorem head?_ne_hyphen {l : Str} (h : headNotHyphen l = true) :
    l.head? ≠ some '-' := by
  cases l with
  | nil => simp
  | cons c cs =>
    simp only [headNotHyphen, Bool.not_eq_true', decide_eq_false_iff_not] at h
    simpa using h

theorem dropTrailingHyphens_subset {a : Char} :
    ∀ l : Str, a ∈ dropTrailingHyphens l → a ∈ l := by
  intro l
  induction l with
  | nil => intro h; cases h
  | cons c cs ih =>
    intro h
    rw [dropTrailingHyphens] at h
    by_cases hc : ((dropTrailingHyphens cs).isEmpty && decide (c = '-')) = true
    · rw [if_pos hc] at h; cases h
    · rw [if_neg hc] at h
      rcases List.mem_cons.mp h with rfl | h
      · exact List.mem_cons_self _ _
      · exact List.mem_cons_of_mem _ (ih h)

theorem dropTrailingHyphens_cons_ne (c : Char) (l : Str) (hc : c ≠ '-') :
    dropTrailingHyphens (c :: l) = c :: dropTrailingHyphens l := by
  rw [dropTrailingHyphens]
  simp [hc]

theorem dropTrailingHyphens_getLast? :
    ∀ l : Str, (dropTrailingHyphens l).getLast? ≠ some '-' := by
  intro l
  induction l with
  | nil => simp [dropTrailingHyphens]
  | cons c cs ih =>
    rw [dropTrailingHyphens]
    by_cases hc : ((dropTrailingHyphens cs).isEmpty && decide (c = '-')) = true
    · rw [if_pos hc]; simp
    · rw [if_neg hc]
      cases hrest : dropTrailingHyphens cs with
      | nil =>
        have hcne : ¬ c = '-' := by
          intro hcc
          apply hc
          simp [hrest, hcc]
        simpa using hcne
      | cons y ys =>
        rw [List.getLast?_cons_cons, ← hrest]
        exact ih

theorem dropTrailingHyphens_length_le : ∀ l : Str, (dropTrailingHyphens l).length ≤ l.length := by
  intro l
  induction l with
  | nil => simp [dropTrailingHyphens]
  | cons c cs ih =>
    rw [dropTrailingHyphens]
    by_cases hc : ((dropTrailingHyphens cs).isEmpty && decide (c = '-')) = true
    · rw [if_pos hc]; simp
    · rw [if_neg hc]
      simpa using ih

theorem validate_of_props (l : Str) (hne : l ≠ []) (hlen : l.length ≤ 40)
    (hhead : headNotHyphen l = true) (hlast : l.getLast? ≠ some '-')
    (hval : ∀ x ∈ l, isValidNameChar x = true) :
    validate_room_name l = .ok () := by
  have hhead' : l.head? ≠ some '-' := head?_ne_hyphen hhead
  have hall : l.all isValidNameChar = true := List.all_eq_true.mpr hval
  have hlen' : ¬ l.length > 40 := by omega
  simp [validate_room_name, List.isEmpty_iff, hne, hlen', hhead', hlast, hall]

/-- C1 (amended): for every input containing at least one character that
is alphanumeric after lowercasing, `sanitize_room_name` produces a name
accepted by `validate_room_name`. -/
theorem sanitize_room_name_validates (s : Str)
    (h : (rustToLowercase s).any isAsciiAlnum = true) :
    validate_room_name (sanitize_room_name s) = Except.ok () := by
  have key : ∀ r1 : Str, (∃ a, a ∈ r1 ∧ a ≠ '-') → headNotHyphen r1 = true →
      r1.getLast? ≠ some '-' → (∀ x ∈ r1, isValidNameChar x = true) →
      validate_room_name (if r1.length > 40 then dropTrailingHyphens (r1.take 40) else r1) =
        Except.ok () := by
    intro r1 hmem hhead hlast hval
    obtain ⟨a, ha, hane⟩ := hmem
    by_cases hl : r1.length > 40
    · rw [if_pos hl]
      cases r1 with
      | nil => cases ha
      | cons h0 t =>
        have h0ne : h0 ≠ '-' := by
          simpa [headNotHyphen] using hhead
        have htake : (h0 :: t).take 40 = h0 :: t.take 39 := by
          rfl
        rw [htake, dropTrailingHyphens_cons_ne h0 _ h0ne]
        apply validate_of_props
        · simp
        · have h1 := dropTrailingHyphens_length_le (t.take 39)
          have h2 : (t.take 39).length ≤ 39 := List.length_take_le 39 t
          simp only [List.length_cons]
          omega
        · simpa [headNotHyphen] using h0ne
        · have := dropTrailingHyphens_getLast? (h0 :: t.take 39)
          rwa [dropTrailingHyphens_cons_ne h0 _ h0ne] at this
        · intro x hx
          rcases List.mem_cons.mp hx with rfl | hx
          · exact hval x (List.mem_cons_self _ _)
          · have hx' : x ∈ t.take 39 := dropTrailingHyphens_subset _ hx
            exact hval x (List.mem_cons_of_mem _ (List.take_subset _ _ hx'))
    · rw [if_neg hl]
      exact validate_of_props r1 (List.ne_nil_of_mem ha) (by omega) hhead hlast hval
  obtain ⟨a, ha, halnum⟩ := List.any_eq_true.mp h
  have hane : a ≠ '-' := alnum_ne_hyphen halnum
  have hmem : a ∈ (rustToLowercase s).map hyphenate := by
    have heq : hyphenate a = a := by
      rw [hyphenate, if_pos halnum]
    exact heq ▸ List.mem_map_of_mem hyphenate ha
  have hvalid : ∀ x ∈ (rustToLowercase s).map hyphenate, isValidNameChar x = true := by
    intro x hx
    rw [rustToLowercase, List.map_map] at hx
    obtain ⟨c, _, rfl⟩ := List.mem_map.mp hx
    exact valid_hyphenate_toLower c
  have hcadj := noAdjHyphens_collapse ((rustToLowercase s).map hyphenate) true
  have hchead := headNotHyphen_collapse ((rustToLowercase s).map hyphenate)
  have hcmem := mem_collapseHyphens hane hmem true
  have hcval : ∀ x ∈ collapseHyphens ((rustToLowercase s).map hyphenate) true,
      isValidNameChar x = true :=
    fun x hx => hvalid x (collapseHyphens_subset true hx)
  rw [sanitize_room_name]
  set collapsed := collapseHyphens ((rustToLowercase s).map hyphenate) true with hcol
  by_cases hlast : collapsed.getLast? = some '-'
  · rw [if_pos hlast]
    apply key
    · refine ⟨a, ?_, hane⟩
      have hcne : collapsed ≠ [] := List.ne_nil_of_mem hcmem
      have hsplit := List.dropLast_append_getLast hcne
      have hgl : collapsed.getLast hcne = '-' := by
        have := List.getLast?_eq_getLast collapsed hcne
        rw [this] at hlast
        exact (Option.some.injEq _ _).mp hlast
      rw [hgl] at hsplit
      have := hsplit ▸ hcmem
      rcases List.mem_append.mp this with hmem' | hmem'
      · exact hmem'
      · simp only [List.mem_singleton] at hmem'
        exact absurd hmem' hane
    · exact headNotHyphen_dropLast _ hchead
    · exact dropLast_getLast?_ne_hyphen collapsed hcadj hlast
    · intro x hx
      exact hcval x ((List.dropLast_prefix collapsed).subset hx)
  · rw [if_neg hlast]
    exact key collapsed ⟨a, hcmem, hane⟩ hchead hlast hcval

/-- C1 (counterexample): the input consisting of a single hyphen contains
no alphanumeric character; `sanitize_room_name` maps it to the empty
string, which `validate_room_name` rejects — so sanitized names do not
always validate. -/
theorem sanitize_all_hyphen_fails_validate :
    validate_room_name (sanitize_room_name (str "-")) =
      Except.error "name cannot be empty" := by rfl

/-- Witness for `sanitize_room_name_validates` at the concrete input
"My Feature". -/
theorem sanitize_room_name_validates_witness :
    (rustToLowercase (str "My Feature")).any isAsciiAlnum = true ∧
      validate_room_name (sanitize_room_name (str "My Feature")) = Except.ok () :=
  ⟨by decide, sanitize_room_name_validates (str "My Feature") (by decide)⟩

/-! ## C7: unique name generation -/

theorem findFreeName_not_rejected (gen : Nat → Str) (existsFn : Str → Bool) :
    ∀ fuel i name, findFreeName gen existsFn i fuel = some name → existsFn name = false := by
  intro fuel
  induction fuel with
  | zero => intro i name h; cases h
  | succ fuel ih =>
    intro i name h
    rw [findFreeName] at h
    cases he : existsFn (gen i) with
    | false =>
      rw [he] at h
      simp only [Bool.not_false, if_pos] at h
      obtain rfl : gen i = name := Option.some.inj h
      exact he
    | true =>
      rw [he] at h
      simp only [Bool.not_true, Bool.false_eq_true, if_neg] at h
      exact ih (i + 1) name h

theorem findFreeName_isSome (gen : Nat → Str) (existsFn : Str → Bool) :
    ∀ fuel i, (∃ d, d < fuel ∧ existsFn (gen (i + d)) = false) →
      (findFreeName gen existsFn i fuel).isSome = true := by
  intro fuel
  induction fuel with
  | zero => intro i h; obtain ⟨d, hd, _⟩ := h; omega
  | succ fuel ih =>
    intro i h
    rw [findFreeName]
    cases he : existsFn (gen i) with
    | false => simp [he]
    | true =>
      simp only [he, Bool.not_true, Bool.false_eq_true, if_neg]
      apply ih
      obtain ⟨d, hd, hfree⟩ := h
      cases d with
      | zero => rw [Nat.add_zero] at hfree; rw [hfree] at he; cases he
      | succ d =>
        refine ⟨d, by omega, ?_⟩
        have : i + 1 + d = i + (d + 1) := by omega
        rw [this]
        exact hfree

theorem findFreeName_all_rejected (gen : Nat → Str) (existsFn : Str → Bool) :
    ∀ fuel i, (∀ d, d < fuel → existsFn (gen (i + d)) = true) →
      findFreeName gen existsFn i fuel = none ∧
      queriedNames gen existsFn i fuel = (List.range fuel).map (fun d => gen (i + d)) := by
  intro fuel
  induction fuel with
  | zero => intro i _; exact ⟨rfl, rfl⟩
  | succ fuel ih =>
    intro i h
    have h0 : existsFn (gen i) = true := by
      have := h 0 (by omega)
      rwa [Nat.add_zero] at this
    have hrest : ∀ d, d < fuel → existsFn (gen (i + 1 + d)) = true := by
      intro d hd
      have : i + 1 + d = i + (d + 1) := by omega
      rw [this]
      exact h (d + 1) (by omega)
    obtain ⟨ihn, ihq⟩ := ih (i + 1) hrest
    constructor
    · rw [findFreeName]
      simp only [h0, Bool.not_true, Bool.false_eq_true, if_neg]
      exact ihn
    · rw [List.range_succ_eq_map, List.map_cons, List.map_map, Nat.add_zero]
      rw [queriedNames]
      simp only [h0, Bool.not_true]
      rw [if_neg (by simp)]
      rw [ihq]
      congr 1
      apply List.map_congr_left
      intro d _
      simp only [Function.comp_apply]
      congr 1
      omega

/-- C7: whenever `existsFn` rejects at most 99 of the first 100 generated
candidates, `generate_unique_room_name` returns a name `existsFn` does
not reject; when it rejects all 100, the fallback `room-<timestamp>`
(the decimal unix-seconds clock value) is returned, and `existsFn` is
consulted exactly on the 100 generated candidates — never on the
fallback name itself. -/
theorem generate_unique_room_name_spec (gen : Nat → Str) (existsFn : Str → Bool) (ts : Nat) :
    (((List.range 100).countP fun i => existsFn (gen i)) ≤ 99 →
      existsFn (generate_unique_room_name gen existsFn ts) = false) ∧
    ((∀ i, i < 100 → existsFn (gen i) = true) →
      generate_unique_room_name gen existsFn ts = str "room-" ++ str (Nat.repr ts) ∧
      queriedNames gen existsFn 0 100 = (List.range 100).map gen) := by
  constructor
  · intro hcount
    have hex : ∃ i, i < 100 ∧ existsFn (gen i) = false := by
      by_contra hc
      push_neg at hc
      have hall : ∀ x ∈ List.range 100, (fun i => existsFn (gen i)) x = true := by
        intro x hx
        have hx' : x < 100 := List.mem_range.mp hx
        cases hxx : existsFn (gen x) with
        | true => exact hxx
        | false => exact absurd hxx (hc x hx')
      have hfull : ((List.range 100).countP fun i => existsFn (gen i)) = 100 := by
        rw [List.countP_eq_length.mpr hall, List.length_range]
      omega
    obtain ⟨i, hi, hfree⟩ := hex
    have hsome := findFreeName_isSome gen existsFn 100 0
      ⟨i, hi, by rw [Nat.zero_add]; exact hfree⟩
    rw [generate_unique_room_name]
    cases hf : findFreeName gen existsFn 0 100 with
    | none => rw [hf] at hsome; cases hsome
    | some name => exact findFreeName_not_rejected gen existsFn 100 0 name hf
  · intro hall
    obtain ⟨hn, hq⟩ := findFreeName_all_rejected gen existsFn 100 0
      (fun d hd => by rw [Nat.zero_add]; exact hall d hd)
    refine ⟨?_, ?_⟩
    · rw [generate_unique_room_name, hn]
    · rw [hq]
      apply List.map_congr_left
      intro d _
      rw [Nat.zero_add]

/-- Witness for `generate_unique_room_name_spec`: the first conjunct at a
generator whose candidates are never taken, the second at one whose
candidates are always taken. -/
theorem generate_unique_room_name_spec_witness :
    (fun _ : Str => false) (generate_unique_room_name (fun _ => str "a") (fun _ => false) 0) =
        false ∧
      generate_unique_room_name (fun _ => str "a") (fun _ => true) 5 =
        str "room-" ++ str (Nat.repr 5) := by
  constructor
  · exact (generate_unique_room_name_spec (fun _ => str "a") (fun _ => false) 0).1 (by decide)
  · exact ((generate_unique_room_name_spec (fun _ => str "a") (fun _ => true) 5).2
      (fun _ _ => rfl)).1

/-! ## C9 and C10: the porcelain parser -/

theorem isPre_append {α : Type} [DecidableEq α] (pre t : List α) :
    isPre pre (pre ++ t) = true := by
  induction pre with
  | nil => rfl
  | cons a as ih => simp [isPre, ih]

theorem stripPre_append (pre t : Str) : stripPre pre (pre ++ t) = some t := by
  rw [stripPre, if_pos (isPre_append pre t), List.drop_left]

theorem stripPre_of_isPre_false {pre s : Str} (h : isPre pre s = false) :
    stripPre pre s = none := by
  rw [stripPre, if_neg]
  simp [h]

theorem pstep_worktree_line (st : PState) (p : Str) :
    pstep st (str "worktree " ++ p) = { st with current_path := some p } := by
  have hb : str "worktree " ++ p ≠ [] := by
    intro h
    exact absurd (List.append_eq_nil.mp h).1 (by decide)
  rw [pstep, if_neg hb, stripPre_append]

theorem pstep_head_line (st : PState) (h : Str) :
    pstep st (str "HEAD " ++ h) = { st with current_head := some h } := by
  have hb : str "HEAD " ++ h ≠ [] := by
    intro hh
    exact absurd (List.append_eq_nil.mp hh).1 (by decide)
  rw [pstep, if_neg hb]
  rw [stripPre_of_isPre_false (show isPre (str "worktree ") (str "HEAD " ++ h) = false from rfl)]
  rw [stripPre_append]

theorem pstep_bare_prunable (st : PState) :
    pstep st (str "prunable") = { st with current_prunable := some [] } := rfl

theorem pstep_bare_locked (st : PState) :
    pstep st (str "locked") = { st with current_locked := some [] } := rfl

theorem pstep_nonblank_frame (st : PState) (line : Str) (hb : line ≠ []) :
    (pstep st line).worktrees = st.worktrees ∧
      (pstep st line).is_first = st.is_first ∧
      (st.current_path.isSome = true → (pstep st line).current_path.isSome = true) ∧
      (st.current_head.isSome = true → (pstep st line).current_head.isSome = true) := by
  rw [pstep, if_neg hb]
  cases h1 : stripPre (str "worktree ") line with
  | some p => exact ⟨rfl, rfl, fun _ => rfl, fun h => h⟩
  | none =>
  cases h2 : stripPre (str "HEAD ") line with
  | some p => exact ⟨rfl, rfl, fun h => h, fun _ => rfl⟩
  | none =>
  cases h3 : stripPre (str "branch ") line with
  | some p => exact ⟨rfl, rfl, fun h => h, fun h => h⟩
  | none =>
  cases h4 : stripPre (str "prunable ") line with
  | some p => exact ⟨rfl, rfl, fun h => h, fun h => h⟩
  | none =>
  by_cases h5 : line = str "prunable"
  · rw [if_pos h5]
    exact ⟨rfl, rfl, fun h => h, fun h => h⟩
  · rw [if_neg h5]
    cases h6 : stripPre (str "locked ") line with
    | some p => exact ⟨rfl, rfl, fun h => h, fun h => h⟩
    | none =>
      by_cases h7 : line = str "locked"
      · rw [if_pos h7]
        exact ⟨rfl, rfl, fun h => h, fun h => h⟩
      · rw [if_neg h7]
        exact ⟨rfl, rfl, fun h => h, fun h => h⟩

theorem pstep_prunable_frame (st : PState) (line : Str) (hb : line ≠ [])
    (h1 : isPre (str "prunable ") line = false) (h2 : line ≠ str "prunable") :
    (pstep st line).current_prunable = st.current_prunable := by
  rw [pstep, if_neg hb]
  cases hw : stripPre (str "worktree ") line with
  | some p => rfl
  | none =>
  cases hh : stripPre (str "HEAD ") line with
  | some p => rfl
  | none =>
  cases hbr : stripPre (str "branch ") line with
  | some p => rfl
  | none =>
  rw [stripPre_of_isPre_false h1, if_neg h2]
  cases hl : stripPre (str "locked ") line with
  | some p => rfl
  | none =>
    by_cases h7 : line = str "locked"
    · rw [if_pos h7]
    · rw [if_neg h7]

theorem pstep_locked_frame (st : PState) (line : Str) (hb : line ≠ [])
    (h1 : isPre (str "locked ") line = false) (h2 : line ≠ str "locked") :
    (pstep st line).current_locked = st.current_locked := by
  rw [pstep, if_neg hb]
  cases hw : stripPre (str "worktree ") line with
  | some p => rfl
  | none =>
  cases hh : stripPre (str "HEAD ") line with
  | some p => rfl
  | none =>
  cases hbr : stripPre (str "branch ") line with
  | some p => rfl
  | none =>
  cases hp : stripPre (str "prunable ") line with
  | some p => rfl
  | none =>
  by_cases h5 : line = str "prunable"
  · rw [if_pos h5]
  · rw [if_neg h5]
    rw [stripPre_of_isPre_false h1, if_neg h2]

theorem foldl_pstep_frame (ls : List Str) :
    ∀ st : PState, [] ∉ ls →
      (ls.foldl pstep st).worktrees = st.worktrees ∧
      (ls.foldl pstep st).is_first = st.is_first ∧
      (st.current_path.isSome = true → (ls.foldl pstep st).current_path.isSome = true) ∧
      (st.current_head.isSome = true → (ls.foldl pstep st).current_head.isSome = true) := by
  induction ls with
  | nil => intro st _; exact ⟨rfl, rfl, fun h => h, fun h => h⟩
  | cons l ls ih =>
    intro st hnb
    have hbl : l ≠ [] := fun h => hnb (h ▸ List.mem_cons_self _ _)
    have hnb' : [] ∉ ls := fun h => hnb (List.mem_cons_of_mem _ h)
    obtain ⟨f1, f2, f3, f4⟩ := pstep_nonblank_frame st l hbl
    obtain ⟨g1, g2, g3, g4⟩ := ih (pstep st l) hnb'
    rw [List.foldl_cons]
    exact ⟨g1.trans f1, g2.trans f2, fun h => g3 (f3 h), fun h => g4 (f4 h)⟩

theorem foldl_pstep_prunable (ls : List Str) :
    ∀ st : PState, [] ∉ ls → (∀ l ∈ ls, isPre (str "prunable ") l = false) →
      (ls.foldl pstep st).current_prunable =
        (if str "prunable" ∈ ls then some [] else st.current_prunable) := by
  induction ls with
  | nil => intro st _ _; simp
  | cons l ls ih =>
    intro st hnb hnp
    have hbl : l ≠ [] := fun h => hnb (h ▸ List.mem_cons_self _ _)
    have hnb' : [] ∉ ls := fun h => hnb (List.mem_cons_of_mem _ h)
    have hnp' : ∀ x ∈ ls, isPre (str "prunable ") x = false :=
      fun x hx => hnp x (List.mem_cons_of_mem _ hx)
    rw [List.foldl_cons]
    by_cases hl : l = str "prunable"
    · subst hl
      rw [pstep_bare_prunable, ih _ hnb' hnp']
      by_cases hm : str "prunable" ∈ ls
      · rw [if_pos hm, if_pos (List.mem_cons_self _ _)]
      · rw [if_neg hm, if_pos (List.mem_cons_self _ _)]
    · rw [ih _ hnb' hnp']
      have hkeep := pstep_prunable_frame st l hbl (hnp l (List.mem_cons_self _ _)) hl
      by_cases hm : str "prunable" ∈ ls
      · rw [if_pos hm, if_pos (List.mem_cons_of_mem _ hm)]
      · rw [if_neg hm, hkeep, if_neg ?_]
        intro hcontr
        rcases List.mem_cons.mp hcontr with heq | hmem
        · exact hl heq.symm
        · exact hm hmem

theorem foldl_pstep_locked (ls : List Str) :
    ∀ st : PState, [] ∉ ls → (∀ l ∈ ls, isPre (str "locked ") l = false) →
      (ls.foldl pstep st).current_locked =
        (if str "locked" ∈ ls then some [] else st.current_locked) := by
  induction ls with
  | nil => intro st _ _; simp
  | cons l ls ih =>
    intro st hnb hnp
    have hbl : l ≠ [] := fun h => hnb (h ▸ List.mem_cons_self _ _)
    have hnb' : [] ∉ ls := fun h => hnb (List.mem_cons_of_mem _ h)
    have hnp' : ∀ x ∈ ls, isPre (str "locked ") x = false :=
      fun x hx => hnp x (List.mem_cons_of_mem _ hx)
    rw [List.foldl_cons]
    by_cases hl : l = str "locked"
    · subst hl
      rw [pstep_bare_locked, ih _ hnb' hnp']
      by_cases hm : str "locked" ∈ ls
      · rw [if_pos hm, if_pos (List.mem_cons_self _ _)]
      · rw [if_neg hm, if_pos (List.mem_cons_self _ _)]
    · rw [ih _ hnb' hnp']
      have hkeep := pstep_locked_frame st l hbl (hnp l (List.mem_cons_self _ _)) hl
      by_cases hm : str "locked" ∈ ls
      · rw [if_pos hm, if_pos (List.mem_cons_of_mem _ hm)]
      · rw [if_neg hm, hkeep, if_neg ?_]
        intro hcontr
        rcases List.mem_cons.mp hcontr with heq | hmem
        · exact hl heq.symm
        · exact hm hmem

/-- C9: a porcelain record with a `worktree` line, a `HEAD` line and
further non-blank lines yields exactly one worktree; a bare `prunable`
line (with no reasoned `prunable` line present) yields
`prunable = some ""`, while a record with no `prunable` line at all
yields `prunable = none` — the two cases are told apart by option
presence; the same holds for `locked` lines. -/
theorem parse_porcelain_presence (p hd : Str) (extra : List Str) (hnb : [] ∉ extra) :
    ∃ wt, parsePorcelainLines ((str "worktree " ++ p) :: (str "HEAD " ++ hd) :: extra) = [wt]
      ∧ (str "prunable" ∈ extra → (∀ l ∈ extra, isPre (str "prunable ") l = false) →
          wt.prunable = some [])
      ∧ ((∀ l ∈ extra, l ≠ str "prunable" ∧ isPre (str "prunable ") l = false) →
          wt.prunable = none)
      ∧ (str "locked" ∈ extra → (∀ l ∈ extra, isPre (str "locked ") l = false) →
          wt.locked = some [])
      ∧ ((∀ l ∈ extra, l ≠ str "locked" ∧ isPre (str "locked ") l = false) →
          wt.locked = none) := by
  rw [parsePorcelainLines, List.foldl_cons, List.foldl_cons, pstep_worktree_line,
    pstep_head_line]
  set st2 : PState := { { initPState with current_path := some p } with current_head := some hd }
    with hst2
  obtain ⟨f1, f2, f3, f4⟩ := foldl_pstep_frame extra st2 hnb
  obtain ⟨p', hp'⟩ := Option.isSome_iff_exists.mp (f3 rfl)
  obtain ⟨h', hh'⟩ := Option.isSome_iff_exists.mp (f4 rfl)
  refine ⟨⟨p', h', (extra.foldl pstep st2).current_branch, true,
      (extra.foldl pstep st2).current_prunable,
      (extra.foldl pstep st2).current_locked⟩, ?_, ?_, ?_, ?_, ?_⟩
  · rw [flushFinal, hp', hh', f1, f2]
    rfl
  · intro hmem hnopre
    have := foldl_pstep_prunable extra st2 hnb hnopre
    simp only [if_pos hmem] at this
    exact this
  · intro hcond
    have := foldl_pstep_prunable extra st2 hnb (fun l hl => (hcond l hl).2)
    rw [if_neg ?_] at this
    · exact this
    · intro hcontr
      exact (hcond _ hcontr).1 rfl
  · intro hmem hnopre
    have := foldl_pstep_locked extra st2 hnb hnopre
    simp only [if_pos hmem] at this
    exact this
  · intro hcond
    have := foldl_pstep_locked extra st2 hnb (fun l hl => (hcond l hl).2)
    rw [if_neg ?_] at this
    · exact this
    · intro hcontr
      exact (hcond _ hcontr).1 rfl

/-- Witness for `parse_porcelain_presence`: a concrete record with a
bare `prunable` line and no `locked` line. -/
theorem parse_porcelain_presence_witness :
    ∃ wt, parsePorcelainLines
        ((str "worktree " ++ str "/r/.rooms/orphan") :: (str "HEAD " ++ str "abc123")
          :: [str "branch refs/heads/t", str "prunable"]) = [wt]
      ∧ wt.prunable = some [] ∧ wt.locked = none := by
  obtain ⟨wt, h1, h2, _, _, h5⟩ :=
    parse_porcelain_presence (str "/r/.rooms/orphan") (str "abc123")
      [str "branch refs/heads/t", str "prunable"] (by decide)
  exact ⟨wt, h1, h2 (by decide) (by decide), h5 (by decide)⟩

theorem flushFinal_pstep_blank (st : PState) : flushFinal (pstep st []) = flushFinal st := by
  rw [pstep, if_pos rfl]
  cases hp : st.current_path with
  | none => simp [flushFinal, hp]
  | some p =>
    cases hh : st.current_head with
    | none => simp [flushFinal, hp, hh]
    | some hd => simp [flushFinal, hp, hh]

theorem parsePorcelainLines_append_blank (ls : List Str) :
    parsePorcelainLines (ls ++ [[]]) = parsePorcelainLines ls := by
  rw [parsePorcelainLines, parsePorcelainLines, List.foldl_append, List.foldl_cons,
    List.foldl_nil]
  exact flushFinal_pstep_blank _

theorem splitOnCharAux_append_sep (sep : Char) :
    ∀ (xs acc : Str), splitOnCharAux sep (xs ++ [sep]) acc =
      splitOnCharAux sep xs acc ++ [[]] := by
  intro xs
  induction xs with
  | nil => intro acc; simp [splitOnCharAux]
  | cons c cs ih =>
    intro acc
    by_cases hc : c = sep
    · simp [splitOnCharAux, hc, ih]
    · simp [splitOnCharAux, hc, ih]

theorem append_main_spec (l : List Worktree) (wt : Worktree)
    (hfirst : wt.is_main = l.isEmpty)
    (hmain : ∀ i (h : i < l.length), (l.get ⟨i, h⟩).is_main = decide (i = 0)) :
    ∀ i (h : i < (l ++ [wt]).length), ((l ++ [wt]).get ⟨i, h⟩).is_main = decide (i = 0) := by
  intro i h
  by_cases hi : i < l.length
  · have : (l ++ [wt]).get ⟨i, h⟩ = l.get ⟨i, hi⟩ := by
      simp [List.get_eq_getElem, List.getElem_append_left hi]
    rw [this]
    exact hmain i hi
  · have hlen : i = l.length := by
      rw [List.length_append, List.length_singleton] at h
      omega
    subst hlen
    have : (l ++ [wt]).get ⟨l.length, h⟩ = wt := by
      have := List.getElem_concat_length l wt l.length rfl
        (by rw [List.length_append, List.length_singleton]; omega)
      exact this
    rw [this, hfirst]
    cases l with
    | nil => rfl
    | cons x xs =>
      simp only [List.isEmpty_cons, List.length_cons]
      have : ¬ (xs.length + 1 = 0) := by omega
      simp [this]

theorem goodPState_pstep (st : PState) (line : Str) (h : goodPState st) :
    goodPState (pstep st line) := by
  obtain ⟨hfirst, hmain⟩ := h
  by_cases hb : line = []
  · subst hb
    rw [pstep, if_pos rfl]
    cases hp : st.current_path with
    | none => exact ⟨hfirst, hmain⟩
    | some p =>
      cases hh : st.current_head with
      | none => exact ⟨hfirst, hmain⟩
      | some hd =>
        constructor
        · simp
        · exact append_main_spec st.worktrees _ hfirst hmain
  · obtain ⟨f1, f2, _, _⟩ := pstep_nonblank_frame st line hb
    refine ⟨?_, ?_⟩
    · rw [f1, f2]; exact hfirst
    · intro i hi
      rw [List.get_of_eq f1]
      exact hmain i _

theorem goodPState_foldl (ls : List Str) :
    ∀ st : PState, goodPState st → goodPState (ls.foldl pstep st) := by
  induction ls with
  | nil => intro st h; exact h
  | cons l ls ih =>
    intro st h
    rw [List.foldl_cons]
    exact ih _ (goodPState_pstep st l h)

theorem goodPState_init : goodPState initPState := by
  constructor
  · rfl
  · intro i h
    simp [initPState] at h

theorem flushFinal_main (st : PState) (h : goodPState st) :
    ∀ i (hi : i < (flushFinal st).length),
      ((flushFinal st).get ⟨i, hi⟩).is_main = decide (i = 0) := by
  obtain ⟨hfirst, hmain⟩ := h
  rw [flushFinal]
  cases hp : st.current_path with
  | none => exact hmain
  | some p =>
    cases hh : st.current_head with
    | none => exact hmain
    | some hd => exact append_main_spec st.worktrees _ hfirst hmain

/-- C10: the porcelain parser is insensitive to a trailing blank line —
appending a final newline and blank line to the output (equivalently, a
trailing empty line to the line list) leaves the parse unchanged, the
final record being emitted either way — and among the emitted records
exactly the first one is marked `is_main`. -/
theorem parse_porcelain_trailing_blank_and_main (s : Str) (ls : List Str) :
    parse_porcelain_output (s ++ str "\n\n") = parse_porcelain_output s ∧
      parsePorcelainLines (ls ++ [[]]) = parsePorcelainLines ls ∧
      ∀ i (h : i < (parsePorcelainLines ls).length),
        ((parsePorcelainLines ls).get ⟨i, h⟩).is_main = decide (i = 0) := by
  refine ⟨?_, parsePorcelainLines_append_blank ls, ?_⟩
  · rw [parse_porcelain_output, parse_porcelain_output]
    have hsplit : splitOnChar '\n' (s ++ str "\n\n") = splitOnChar '\n' s ++ [[], []] := by
      have h1 : s ++ str "\n\n" = (s ++ ['\n']) ++ ['\n'] := by
        rw [List.append_assoc]; rfl
      rw [h1, splitOnChar, splitOnCharAux_append_sep, ← splitOnChar]
      rw [splitOnChar, splitOnCharAux_append_sep, ← splitOnChar]
      rw [List.append_assoc]; rfl
    have hr2 : rustLines (s ++ str "\n\n") = (splitOnChar '\n' s).map stripCR ++ [[]] := by
      simp only [rustLines]
      rw [hsplit]
      have e1 : splitOnChar '\n' s ++ [([] : Str), []] =
          (splitOnChar '\n' s ++ [[]]) ++ [[]] := by
        rw [List.append_assoc]; rfl
      rw [e1, List.getLast?_concat, List.dropLast_concat, if_pos rfl, List.map_append]
      rfl
    rw [hr2]
    by_cases hl : (splitOnChar '\n' s).getLast? = some ([] : Str)
    · have hne : splitOnChar '\n' s ≠ [] := by
        intro hc; rw [hc] at hl; cases hl
      have hgl : (splitOnChar '\n' s).getLast hne = [] := by
        have := List.getLast?_eq_getLast (splitOnChar '\n' s) hne
        rw [this] at hl
        exact Option.some.inj hl
      have hre : splitOnChar '\n' s = (splitOnChar '\n' s).dropLast ++ [[]] := by
        conv_lhs => rw [← List.dropLast_append_getLast hne]
        rw [hgl]
      have hr1 : rustLines s = (splitOnChar '\n' s).dropLast.map stripCR := by
        simp only [rustLines]
        rw [if_pos hl]
      rw [hr1]
      conv_lhs => rw [hre]
      rw [List.map_append]
      have e2 : List.map stripCR [([] : Str)] = [[]] := rfl
      rw [e2, List.append_assoc]
      have e3 : ([([] : Str)] : List Str) ++ [[]] = [[], []] := rfl
      rw [e3]
      have e4 : List.map stripCR (splitOnChar '\n' s).dropLast ++ [[], []] =
          (List.map stripCR (splitOnChar '\n' s).dropLast ++ [[]]) ++ [[]] := by
        rw [List.append_assoc]; rfl
      rw [e4, parsePorcelainLines_append_blank, parsePorcelainLines_append_blank]
    · have hr1 : rustLines s = (splitOnChar '\n' s).map stripCR := by
        simp only [rustLines]
        rw [if_neg hl]
      rw [hr1]
      exact parsePorcelainLines_append_blank _
  · rw [parsePorcelainLines]
    exact flushFinal_main _ (goodPState_foldl ls initPState goodPState_init)

/-- Witness for `parse_porcelain_trailing_blank_and_main` at a concrete
two-record listing, reading off that the first record alone is the main
one. -/
theorem parse_porcelain_trailing_blank_witness :
    parse_porcelain_output (str "worktree /a\nHEAD 1" ++ str "\n\n") =
        parse_porcelain_output (str "worktree /a\nHEAD 1") ∧
      ((parsePorcelainLines [str "worktree /a", str "HEAD 1", [],
          str "worktree /b", str "HEAD 2"]).get ⟨1, by decide⟩).is_main = decide (1 = 0) := by
  constructor
  · exact (parse_porcelain_trailing_blank_and_main (str "worktree /a\nHEAD 1") []).1
  · exact (parse_porcelain_trailing_blank_and_main []
      [str "worktree /a", str "HEAD 1", [], str "worktree /b", str "HEAD 2"]).2.2 1 (by decide)

/-! ## C3 and C4: room discovery -/

theorem applyOverlay_name (transient : List (Str × TransientRoomState)) (ri : RoomInfo) :
    (applyOverlay transient ri).name = ri.name := by
  rw [applyOverlay]
  cases lookupState transient ri.name with
  | none => rfl
  | some ts => rfl

/-- C3: every room record `discover_rooms` returns whose name has an
entry in the transient overlay carries exactly the overlay entry's
status and last error, replacing the backend-derived ones. -/
theorem discover_rooms_overlay_precedence
    (fsE fsD : Str → Bool) (canon : Str → Option Str) (wts : List Worktree)
    (rooms_dir : Str) (transient : List (Str × TransientRoomState))
    (rooms : List RoomInfo) (ri : RoomInfo) (ts : TransientRoomState)
    (hdisc : discover_rooms fsE fsD canon (.ok wts) rooms_dir transient = .ok rooms)
    (hmem : ri ∈ rooms) (hts : lookupState transient ri.name = some ts) :
    ri.status = ts.status ∧ ri.last_error = ts.last_error := by
  rw [discover_rooms] at hdisc
  by_cases hfs : (!fsE rooms_dir || !fsD rooms_dir) = true
  · rw [if_pos hfs] at hdisc; cases hdisc
  · rw [if_neg hfs] at hdisc
    have hlist : ((wts.filter fun wt =>
        !wt.is_main && is_worktree_in_rooms_dir canon wt ((canon rooms_dir).getD rooms_dir)).map
          fun wt => applyOverlay transient (roomInfoFromWorktree wt)) = rooms :=
      Except.ok.inj hdisc
    rw [← hlist] at hmem
    obtain ⟨wt, _, rfl⟩ := List.mem_map.mp hmem
    rw [applyOverlay_name] at hts
    cases hlk : lookupState transient (roomInfoFromWorktree wt).name with
    | none => rw [hlk] at hts; cases hts
    | some ts2 =>
      rw [hlk] at hts
      obtain rfl : ts2 = ts := Option.some.inj hts
      rw [applyOverlay, hlk]
      exact ⟨rfl, rfl⟩

/-- Witness for `discover_rooms_overlay_precedence`: a backend-derived
`Ready` checkout with a `Deleting` overlay entry is returned as
`Deleting`. -/
theorem discover_rooms_overlay_precedence_witness :
    (RoomInfo.mk (str "x") (some (str "x")) (str "/r/.rooms/x") RoomStatus.Deleting
        false none false).status = (TransientRoomState.mk RoomStatus.Deleting none).status ∧
      (RoomInfo.mk (str "x") (some (str "x")) (str "/r/.rooms/x") RoomStatus.Deleting
        false none false).last_error =
        (TransientRoomState.mk RoomStatus.Deleting none).last_error :=
  discover_rooms_overlay_precedence (fun _ => true) (fun _ => true) (fun p => some p)
    [⟨str "/r/.rooms/x", str "h1", some (str "x"), false, none, none⟩]
    (str "/r/.rooms") [(str "x", ⟨RoomStatus.Deleting, none⟩)]
    [⟨str "x", some (str "x"), str "/r/.rooms/x", RoomStatus.Deleting, false, none, false⟩]
    ⟨str "x", some (str "x"), str "/r/.rooms/x", RoomStatus.Deleting, false, none, false⟩
    ⟨RoomStatus.Deleting, none⟩ (by rfl) (by simp) (by rfl)

/-- C4 (counterexample): when canonicalization fails, the fallback
containment test is a plain string-prefix comparison of normalized
paths, so the checkout `/r/.roomsx/a` — which lies outside the rooms
directory `/r/.rooms` under the claim's own normalize-equivalence
reading of containment — is still retained by `discover_rooms`. -/
theorem discover_rooms_fallback_sibling_retained :
    (discover_rooms (fun _ => true) (fun _ => true) (fun _ => none)
        (.ok [⟨str "/r", str "h0", some (str "main"), true, none, none⟩,
              ⟨str "/r/.roomsx/a", str "h1", some (str "a"), false, none, none⟩])
        (str "/r/.rooms") []).map (fun rs => rs.map fun ri => ri.path) =
      .ok [str "/r/.roomsx/a"] ∧
    specPathInsideDir (str "/r/.rooms") (str "/r/.roomsx/a") = false := by
  constructor
  · rfl
  · rfl

/-- C4 (amended): every record `discover_rooms` returns comes from a
listed worktree that is not the main one and that passes the containment
test — component-wise descent of the canonicalized path when
canonicalization succeeds, and a normalized-string prefix comparison
(insensitive to separator style, repeated and trailing separators, but
also admitting sibling directories whose name extends the rooms
directory's) when it fails. -/
theorem discover_rooms_retained_records
    (fsE fsD : Str → Bool) (canon : Str → Option Str) (wts : List Worktree)
    (rooms_dir : Str) (transient : List (Str × TransientRoomState))
    (rooms : List RoomInfo) (ri : RoomInfo)
    (hdisc : discover_rooms fsE fsD canon (.ok wts) rooms_dir transient = .ok rooms)
    (hmem : ri ∈ rooms) :
    ∃ wt, wt ∈ wts ∧ ri = applyOverlay transient (roomInfoFromWorktree wt) ∧
      wt.is_main = false ∧
      (∀ c, canon wt.path = some c →
        isPre (componentsOf ((canon rooms_dir).getD rooms_dir)) (componentsOf c) = true) ∧
      (canon wt.path = none →
        isPre (normalize_path_string ((canon rooms_dir).getD rooms_dir))
          (normalize_path_string wt.path) = true) := by
  rw [discover_rooms] at hdisc
  by_cases hfs : (!fsE rooms_dir || !fsD rooms_dir) = true
  · rw [if_pos hfs] at hdisc; cases hdisc
  · rw [if_neg hfs] at hdisc
    have hlist : ((wts.filter fun wt =>
        !wt.is_main && is_worktree_in_rooms_dir canon wt ((canon rooms_dir).getD rooms_dir)).map
          fun wt => applyOverlay transient (roomInfoFromWorktree wt)) = rooms :=
      Except.ok.inj hdisc
    rw [← hlist] at hmem
    obtain ⟨wt, hwt, rfl⟩ := List.mem_map.mp hmem
    obtain ⟨hin, hcond⟩ := List.mem_filter.mp hwt
    have hcond' : (!wt.is_main) = true ∧
        is_worktree_in_rooms_dir canon wt ((canon rooms_dir).getD rooms_dir) = true := by
      simpa using hcond
    obtain ⟨hnm, hiw⟩ := hcond'
    refine ⟨wt, hin, rfl, by simpa using hnm, ?_, ?_⟩
    · intro c hc
      rw [is_worktree_in_rooms_dir, hc] at hiw
      exact hiw
    · intro hc
      rw [is_worktree_in_rooms_dir, hc] at hiw
      exact hiw

/-- Witness for `discover_rooms_retained_records` at a concrete
discovery of a single in-rooms-dir checkout. -/
theorem discover_rooms_retained_records_witness :
    ∃ wt, wt ∈ [Worktree.mk (str "/r/.rooms/x") (str "h1") (some (str "x")) false none none] ∧
      (RoomInfo.mk (str "x") (some (str "x")) (str "/r/.rooms/x") RoomStatus.Ready
          false none false) = applyOverlay [] (roomInfoFromWorktree wt) ∧
      wt.is_main = false ∧
      (∀ c, (fun p => some p) wt.path = some c →
        isPre (componentsOf (((fun p => some p) (str "/r/.rooms")).getD (str "/r/.rooms")))
          (componentsOf c) = true) ∧
      ((fun p => some p) wt.path = none →
        isPre (normalize_path_string (((fun p => some p) (str "/r/.rooms")).getD
            (str "/r/.rooms")))
          (normalize_path_string wt.path) = true) :=
  discover_rooms_retained_records (fun _ => true) (fun _ => true) (fun p => some p)
    [⟨str "/r/.rooms/x", str "h1", some (str "x"), false, none, none⟩]
    (str "/r/.rooms") []
    [⟨str "x", some (str "x"), str "/r/.rooms/x", RoomStatus.Ready, false, none, false⟩]
    ⟨str "x", some (str "x"), str "/r/.rooms/x", RoomStatus.Ready, false, none, false⟩
    (by rfl) (by simp)

/-! ## C8: idempotent worktree removal -/

/-- C8 (counterexample): on a reported failure whose stderr contains
"is not a working tree", the plain `remove_worktree` succeeds but
`remove_worktree_force` propagates the failure — the idempotent-remove
treatment does not hold for the force variant. -/
theorem remove_worktree_force_not_idempotent :
    remove_worktree (fun _ => .ok ⟨false, str "fatal: /x is not a working tree"⟩)
        (str "/x") = .ok () ∧
      remove_worktree_force (fun _ => .ok ⟨false, str "fatal: /x is not a working tree"⟩)
          (str "/x") =
        .error (.WorktreeRemoval (str "fatal: /x is not a working tree")) := by
  constructor
  · rfl
  · rfl

/-- C8 (amended): whenever the git call runs and reports failure with a
stderr containing "is not a working tree", the plain variant
`remove_worktree` returns success (idempotent remove), while the force
variant `remove_worktree_force` returns the failure as a
`WorktreeRemoval` error. -/
theorem remove_worktree_not_working_tree_spec
    (runRemove runRemoveForce : Str → Except Str CommandOutput) (path : Str)
    (out : CommandOutput)
    (hrun : runRemove path = .ok out) (hrunF : runRemoveForce path = .ok out)
    (hfail : out.success = false)
    (hsub : containsSub (str "is not a working tree") out.stderr = true) :
    remove_worktree runRemove path = .ok () ∧
      remove_worktree_force runRemoveForce path = .error (.WorktreeRemoval out.stderr) := by
  constructor
  · rw [remove_worktree, hrun]
    simp [hfail, hsub]
  · rw [remove_worktree_force, hrunF]
    simp [hfail]

/-- Witness for `remove_worktree_not_working_tree_spec` at a concrete
failing git invocation. -/
theorem remove_worktree_not_working_tree_witness :
    remove_worktree (fun _ => .ok ⟨false, str "'/p' is not a working tree"⟩) (str "/p") =
        .ok () ∧
      remove_worktree_force (fun _ => .ok ⟨false, str "'/p' is not a working tree"⟩)
          (str "/p") =
        .error (.WorktreeRemoval (str "'/p' is not a working tree")) :=
  remove_worktree_not_working_tree_spec _ _ (str "/p")
    ⟨false, str "'/p' is not a working tree"⟩ rfl rfl rfl (by decide)

/-! ## C2: remove refusal behaviour -/

/-- C2 (counterexample): `remove_room` performs no primary-checkout
check (the persisted `Room` record does not even carry a primary flag).
On a state whose sole room is the primary checkout — name "main", path
"/repo", the repository root — it attempts the worktree removal and,
when git reports success, removes the entry and returns ok, for both
force values, instead of refusing. -/
theorem remove_room_removes_primary_named_room :
    (remove_room (fun _ => .ok ⟨true, []⟩) (fun _ => .ok ⟨true, []⟩)
        [⟨str "main", str "main", str "/repo", RoomStatus.Ready, none⟩]
        (str "main") true).result = .ok (str "main") ∧
      (remove_room (fun _ => .ok ⟨true, []⟩) (fun _ => .ok ⟨true, []⟩)
        [⟨str "main", str "main", str "/repo", RoomStatus.Ready, none⟩]
        (str "main") true).state = [] ∧
      (remove_room (fun _ => .ok ⟨true, []⟩) (fun _ => .ok ⟨true, []⟩)
        [⟨str "main", str "main", str "/repo", RoomStatus.Ready, none⟩]
        (str "main") true).attempted = [(true, str "/repo")] ∧
      (remove_room (fun _ => .ok ⟨true, []⟩) (fun _ => .ok ⟨true, []⟩)
        [⟨str "main", str "main", str "/repo", RoomStatus.Ready, none⟩]
        (str "main") false).result = .ok (str "main") := by
  refine ⟨rfl, rfl, rfl, rfl⟩

/-- C2 (amended): `remove_room` returns `NotFound` — leaving the state
unchanged and attempting no removal — when no room carries the given
name, for both force values; the refusal for the primary checkout is
enforced by the caller `App::start_room_deletion`, which stops with
"Cannot delete the primary worktree" whenever the selected room is the
primary one, before any removal is initiated. -/
theorem remove_room_notfound_and_ui_guard
    (runR runRF : Str → Except Str CommandOutput) (state : List Room) (name : Str)
    (force : Bool) (selected : Option RoomInfo) :
    (find_by_name state name = none →
      remove_room runR runRF state name force =
        ⟨.error (.NotFound name), state, []⟩) ∧
    (∀ room, selected = some room → room.is_primary = true →
      start_room_deletion selected = .RefusedPrimary) := by
  constructor
  · intro h
    rw [remove_room, h]
  · intro room hsel hprim
    rw [hsel]
    simp [start_room_deletion, hprim]

/-- Witness for `remove_room_notfound_and_ui_guard`: an empty state and
a selected primary room. -/
theorem remove_room_notfound_and_ui_guard_witness :
    remove_room (fun _ => .ok ⟨true, []⟩) (fun _ => .ok ⟨true, []⟩) [] (str "x") false =
        ⟨.error (.NotFound (str "x")), [], []⟩ ∧
      start_room_deletion (some ⟨str "main", some (str "main"), str "/repo",
        RoomStatus.Ready, false, none, true⟩) = .RefusedPrimary := by
  constructor
  · exact (remove_room_notfound_and_ui_guard (fun _ => .ok ⟨true, []⟩)
      (fun _ => .ok ⟨true, []⟩) [] (str "x") false none).1 rfl
  · exact (remove_room_notfound_and_ui_guard (fun _ => .ok ⟨true, []⟩)
      (fun _ => .ok ⟨true, []⟩) [] (str "x") false
      (some ⟨str "main", some (str "main"), str "/repo", RoomStatus.Ready,
        false, none, true⟩)).2
      ⟨str "main", some (str "main"), str "/repo", RoomStatus.Ready, false, none, true⟩
      rfl rfl

/-! ## C6: rename rejections -/

/-- C6 (counterexample): renaming the room "bad name" to the identical
name "bad name" yields `InvalidName`, not `SameName` — validation of the
new name precedes the same-name check. -/
theorem rename_same_invalid_name_not_samename :
    (rename_room (fun _ => false) (fun _ _ => .ok ⟨true, []⟩) (str "/r/.rooms")
        [⟨str "bad name", str "b", str "/r/.rooms/bn", RoomStatus.Ready, none⟩]
        (str "bad name") (str "bad name")).result =
      .error (.InvalidName "name can only contain lowercase letters, digits, and hyphens") := by
  rfl

/-- C6 (amended): with a valid new name, `rename_room` rejects an
identical name with `SameName`; with a valid, different name already
present in state it rejects with `NameExists`; with a valid, different,
absent name whose destination path exists on disk (for a room found in
state) it rejects with `PathExists` — in each case the state is
unchanged and no worktree move is attempted. -/
theorem rename_room_rejections
    (fsPE : Str → Bool) (runMove : Str → Str → Except Str CommandOutput) (rooms_dir : Str)
    (state : List Room) (cur new : Str) :
    (validate_room_name new = .ok () → cur = new →
      rename_room fsPE runMove rooms_dir state cur new = ⟨.error .SameName, state, []⟩) ∧
    (validate_room_name new = .ok () → cur ≠ new → name_exists state new = true →
      rename_room fsPE runMove rooms_dir state cur new =
        ⟨.error (.NameExists new), state, []⟩) ∧
    (validate_room_name new = .ok () → cur ≠ new → name_exists state new = false →
      (∃ room, find_by_name state cur = some room) → fsPE (pathJoin rooms_dir new) = true →
      rename_room fsPE runMove rooms_dir state cur new =
        ⟨.error (.PathExists (pathJoin rooms_dir new)), state, []⟩) := by
  refine ⟨?_, ?_, ?_⟩
  · intro hv heq
    rw [rename_room, hv, if_pos heq]
  · intro hv hne hex
    rw [rename_room, hv, if_neg hne, if_pos hex]
  · intro hv hne hex hroom hfs
    obtain ⟨room, hroom⟩ := hroom
    rw [rename_room, hv, if_neg hne, if_neg (by simp [hex]), hroom]
    simp [hfs]

/-- Witness for `rename_room_rejections`, exercising all three
rejections at concrete states. -/
theorem rename_room_rejections_witness :
    rename_room (fun _ => false) (fun _ _ => .ok ⟨true, []⟩) (str "/d")
        [⟨str "a", str "a", str "/d/a", RoomStatus.Ready, none⟩] (str "a") (str "a") =
      ⟨.error .SameName, [⟨str "a", str "a", str "/d/a", RoomStatus.Ready, none⟩], []⟩ ∧
    rename_room (fun _ => false) (fun _ _ => .ok ⟨true, []⟩) (str "/d")
        [⟨str "a", str "a", str "/d/a", RoomStatus.Ready, none⟩,
         ⟨str "b", str "b", str "/d/b", RoomStatus.Ready, none⟩] (str "a") (str "b") =
      ⟨.error (.NameExists (str "b")),
        [⟨str "a", str "a", str "/d/a", RoomStatus.Ready, none⟩,
         ⟨str "b", str "b", str "/d/b", RoomStatus.Ready, none⟩], []⟩ ∧
    rename_room (fun _ => true) (fun _ _ => .ok ⟨true, []⟩) (str "/d")
        [⟨str "a", str "a", str "/d/a", RoomStatus.Ready, none⟩] (str "a") (str "b") =
      ⟨.error (.PathExists (pathJoin (str "/d") (str "b"))),
        [⟨str "a", str "a", str "/d/a", RoomStatus.Ready, none⟩], []⟩ := by
  refine ⟨?_, ?_, ?_⟩
  · exact (rename_room_rejections (fun _ => false) (fun _ _ => .ok ⟨true, []⟩) (str "/d")
      [⟨str "a", str "a", str "/d/a", RoomStatus.Ready, none⟩] (str "a") (str "a")).1
      rfl rfl
  · exact (rename_room_rejections (fun _ => false) (fun _ _ => .ok ⟨true, []⟩) (str "/d")
      [⟨str "a", str "a", str "/d/a", RoomStatus.Ready, none⟩,
       ⟨str "b", str "b", str "/d/b", RoomStatus.Ready, none⟩] (str "a") (str "b")).2.1
      rfl (by decide) (by decide)
  · exact (rename_room_rejections (fun _ => true) (fun _ _ => .ok ⟨true, []⟩) (str "/d")
      [⟨str "a", str "a", str "/d/a", RoomStatus.Ready, none⟩] (str "a") (str "b")).2.2
      rfl (by decide) (by decide)
      ⟨⟨str "a", str "a", str "/d/a", RoomStatus.Ready, none⟩, by decide⟩ rfl

/-! ## C5: session resize -/

/-- C5 (counterexample): calling `resize` with the session's current
geometry is not a no-op — the OS-level resize and the parser `set_size`
are still invoked (only the debug-log line is skipped). -/
theorem resize_same_size_not_noop :
    (resizeSession ⟨80, 24, 80, 24, [], [], []⟩ 80 24).os_resize_calls = [(80, 24)] ∧
      (resizeSession ⟨80, 24, 80, 24, [], [], []⟩ 80 24).set_size_calls = [(24, 80)] ∧
      resizeSession ⟨80, 24, 80, 24, [], [], []⟩ 80 24 ≠ ⟨80, 24, 80, 24, [], [], []⟩ := by
  refine ⟨rfl, rfl, ?_⟩
  decide

/-- C5 (amended): `resize` always performs the OS-level resize and the
parser `set_size`, setting both geometries to the requested values;
when the requested geometry equals the current screen geometry, the
geometry values are unchanged and no debug-log entry is written. -/
theorem resize_always_resizes (s : PtySessionModel) (cols rows : Nat) :
    (resizeSession s cols rows).os_resize_calls = s.os_resize_calls ++ [(cols, rows)] ∧
    (resizeSession s cols rows).set_size_calls = s.set_size_calls ++ [(rows, cols)] ∧
    (resizeSession s cols rows).screen_cols = cols ∧
    (resizeSession s cols rows).screen_rows = rows ∧
    (resizeSession s cols rows).os_cols = cols ∧
    (resizeSession s cols rows).os_rows = rows ∧
    (s.screen_cols = cols → s.screen_rows = rows →
      (resizeSession s cols rows).log_calls = s.log_calls ∧
      (resizeSession s cols rows).screen_cols = s.screen_cols ∧
      (resizeSession s cols rows).screen_rows = s.screen_rows) := by
  by_cases h : (s.screen_cols ≠ cols ∨ s.screen_rows ≠ rows)
  · have hcalls : resizeSession s cols rows =
        { s with
            os_cols := cols
            os_rows := rows
            screen_cols := cols
            screen_rows := rows
            os_resize_calls := s.os_resize_calls ++ [(cols, rows)]
            set_size_calls := s.set_size_calls ++ [(rows, cols)]
            log_calls := s.log_calls ++ [((s.screen_cols, s.screen_rows), (cols, rows))] } := by
      rw [resizeSession]
      simp only [if_pos h]
    rw [hcalls]
    refine ⟨rfl, rfl, rfl, rfl, rfl, rfl, ?_⟩
    intro h1 h2
    rcases h with h | h
    · exact absurd h1 h
    · exact absurd h2 h
  · have hcalls : resizeSession s cols rows =
        { s with
            os_cols := cols
            os_rows := rows
            screen_cols := cols
            screen_rows := rows
            os_resize_calls := s.os_resize_calls ++ [(cols, rows)]
            set_size_calls := s.set_size_calls ++ [(rows, cols)] } := by
      rw [resizeSession]
      simp only [if_neg h]
    push_neg at h
    rw [hcalls]
    exact ⟨rfl, rfl, rfl, rfl, rfl, rfl, fun h1 h2 => ⟨rfl, h1.symm, h2.symm⟩⟩

/-- Witness for `resize_always_resizes` at a session resized to its
current 80x24 geometry. -/
theorem resize_always_resizes_witness :
    (resizeSession ⟨80, 24, 80, 24, [], [], []⟩ 80 24).os_resize_calls = [] ++ [(80, 24)] ∧
      (resizeSession ⟨80, 24, 80, 24, [], [], []⟩ 80 24).log_calls = [] := by
  obtain ⟨h1, _, _, _, _, _, h7⟩ := resize_always_resizes ⟨80, 24, 80, 24, [], [], []⟩ 80 24
  exact ⟨h1, (h7 rfl rfl).1⟩

end Rooms
